import Mathlib

/-
Verification development for the fashionGraph pipeline.

The pipeline's pure core is shallowly embedded here:
  * `utils.normalize_brand_name`                  (src/utils.py)
  * `phase4_category_analysis.extract_sentence_context` and
    `phase4_category_analysis.extract_brand_contexts`
  * the Phase-3 brand accumulation / filter / id-assignment block
    (src/phase3_analysis.py, main)
  * `phase4_deduplication.consolidate_brands`, `create_brand_aliases`,
    `create_brand_relationships`
  * `phase5_addToMaster.update_brand_to_brand_relationships` and
    `merge_brands_to_master`

Python strings are modelled as lists of Unicode code points; Python dicts
(which preserve insertion order and overwrite on key reuse) are modelled as
association lists with replace-or-append update; Python's in-place list
mutation through dict-held object aliases is modelled by indexing into the
list state.  Loops that Python cannot bound (`while True` around `str.find`)
are embedded fuel-indexed, with `none` denoting divergence.
-/

namespace FashionGraph

/-- A Python string, modelled as the list of its characters' Unicode code points. -/
abbrev PyStr := List Nat

/-- Code points of a Lean string literal (all literals used here are ASCII). -/
def pyStr (s : String) : PyStr := s.data.map Char.toNat

/-- Python `str.lower` of a single character (`c.lower()` on a length-1 string).
The table covers ASCII together with U+0130 (LATIN CAPITAL LETTER I WITH DOT
ABOVE), the one non-ASCII code point this development evaluates: in CPython,
`chr(0x130).lower()` is the two-character string `"i̇"` (LATIN SMALL
LETTER I followed by COMBINING DOT ABOVE).  Code points outside the table are
left unchanged. -/
def pyLowerChar (c : Nat) : List Nat :=
  if 65 ≤ c ∧ c ≤ 90 then [c + 32]
  else if c = 304 then [105, 775]
  else [c]

/-- Python `str.isalnum` of a single character, restricted to ASCII digits and
letters together with U+0130 (alphanumeric in Python; its lowercase image
U+0307 is a combining mark and is not alphanumeric).  Code points outside this
set are treated as non-alphanumeric; no other code point is evaluated in this
development. -/
def pyIsAlnum (c : Nat) : Bool :=
  decide ((48 ≤ c ∧ c ≤ 57) ∨ (65 ≤ c ∧ c ≤ 90) ∨ (97 ≤ c ∧ c ≤ 122) ∨ c = 304)

/-- Python `str.lower` over a whole string (concatenation of the per-character
lowercase images). -/
def pyLower (s : PyStr) : PyStr := s.flatMap pyLowerChar

/-- src/utils.py, `normalize_brand_name` (identical copy in
src/phase4_category_analysis.py): `''.join(c.lower() for c in name if c.isalnum())`. -/
def normalize_brand_name (s : PyStr) : PyStr :=
  (s.filter pyIsAlnum).flatMap pyLowerChar

theorem normalize_cons (c : Nat) (s : PyStr) :
    normalize_brand_name (c :: s) =
      (if pyIsAlnum c then pyLowerChar c else []) ++ normalize_brand_name s := by
  by_cases h : pyIsAlnum c = true <;>
    simp [normalize_brand_name, List.filter_cons, h]

theorem pyLowerChar_ascii_alnum (c : Nat) (hc : c < 128) (ha : pyIsAlnum c = true) :
    ∃ d, pyLowerChar c = [d] ∧ pyIsAlnum d = true ∧ pyLowerChar d = [d] := by
  simp only [pyIsAlnum, decide_eq_true_eq] at ha
  by_cases hu : 65 ≤ c ∧ c ≤ 90
  · refine ⟨c + 32, ?_, ?_, ?_⟩
    · simp [pyLowerChar, hu]
    · simp only [pyIsAlnum, decide_eq_true_eq]; omega
    · simp only [pyLowerChar]
      rw [if_neg (by omega), if_neg (by omega)]
  · refine ⟨c, ?_, ?_, ?_⟩
    · simp only [pyLowerChar]
      rw [if_neg hu, if_neg (by omega)]
    · simp only [pyIsAlnum, decide_eq_true_eq]; omega
    · simp only [pyLowerChar]
      rw [if_neg hu, if_neg (by omega)]

/-- C8 counterexample: `normalize_brand_name` is not idempotent on the string
consisting of the single character U+0130 ('İ').  Its lowercase image is
"i" followed by the combining mark U+0307; the combining mark survives the
first normalization (the source character is alphanumeric) but is dropped by
the second (the mark itself is not alphanumeric). -/
theorem c8_not_idempotent_unicode :
    normalize_brand_name (normalize_brand_name [304]) ≠ normalize_brand_name [304] := by
  decide

/-- C8 amended: on strings of ASCII characters (code points below 128),
`normalize_brand_name` is idempotent: every kept character's lowercase image
is a single alphanumeric character that is itself fixed by lowercasing. -/
theorem c8_idempotent_ascii (s : PyStr) (h : ∀ c ∈ s, c < 128) :
    normalize_brand_name (normalize_brand_name s) = normalize_brand_name s := by
  induction s with
  | nil => rfl
  | cons c t ih =>
    have hc : c < 128 := h c (List.mem_cons_self c t)
    have ht : ∀ x ∈ t, x < 128 := fun x hx => h x (List.mem_cons_of_mem _ hx)
    rw [normalize_cons]
    by_cases ha : pyIsAlnum c = true
    · obtain ⟨d, hd1, hd2, hd3⟩ := pyLowerChar_ascii_alnum c hc ha
      rw [if_pos ha, hd1]
      have : (([d] : PyStr) ++ normalize_brand_name t) = d :: normalize_brand_name t := rfl
      rw [this, normalize_cons, if_pos hd2, hd3, ih ht]
      rfl
    · rw [if_neg ha, List.nil_append, ih ht]

/-- C8 witness: idempotence at the concrete ASCII input "Hello, World!". -/
theorem c8_witness :
    normalize_brand_name (normalize_brand_name (pyStr "Hello, World!")) =
      normalize_brand_name (pyStr "Hello, World!") :=
  c8_idempotent_ascii (pyStr "Hello, World!") (by decide)

/-- Python slice `s[a:b]` (for `0 ≤ a ≤ b`; both bounds are pre-clamped at
every use site, as in the source). -/
def pySlice (s : PyStr) (a b : Nat) : PyStr := (s.take b).drop a

/-- Python whitespace test for `str.strip` (ASCII whitespace; no non-ASCII
whitespace occurs in this development). -/
def pyIsSpace (c : Nat) : Bool := decide (c = 32 ∨ (9 ≤ c ∧ c ≤ 13))

/-- Python `str.strip()`: drop leading and trailing whitespace. -/
def pyStrip (s : PyStr) : PyStr :=
  ((s.dropWhile pyIsSpace).reverse.dropWhile pyIsSpace).reverse

/-- Python `text.find(sub, start)`: the least index `i` with
`start ≤ i ≤ len(text)` at which `sub` occurs (`text[i:i+len(sub)] == sub`),
`none` standing for Python's `-1`.  In particular the empty needle is found at
`start` itself whenever `start ≤ len(text)`. -/
def pyFind (text sub : PyStr) (start : Nat) : Option Nat :=
  (List.range (text.length + 1)).find?
    (fun i => decide (start ≤ i) && decide ((text.drop i).take sub.length = sub))

/-- Python `sub in text` (`str.__contains__`). -/
def pyContains (text sub : PyStr) : Bool := (pyFind text sub 0).isSome

/-- src/phase4_category_analysis.py lines 35-39, `extract_sentence_context`:
`start = max(0, idx - window); end = min(len(text), idx + window);`
`return text[start:end].strip()` (truncated subtraction is Python's `max(0, ·)`). -/
def extract_sentence_context (text : PyStr) (idx : Nat) (window : Nat) : PyStr :=
  pyStrip (pySlice text (idx - window) (min text.length (idx + window)))

/-- One Reddit post as read by `extract_brand_contexts`:
`post['original_data']['title']`, `post['full_selftext']`, and the comment
bodies `comment['body']`. -/
structure Post where
  title : PyStr
  selftext : PyStr
  comments : List PyStr

/-- src/phase4_category_analysis.py lines 54-63: the text sources of one post,
in source order — title, selftext, then the first 20 comments whose body is
non-empty. -/
def textSources (post : Post) : List PyStr :=
  [post.title, post.selftext] ++ (post.comments.take 20).filter (fun b => b ≠ [])

/-- src/phase4_category_analysis.py lines 73-84: the `while True` loop around
`normalized_text.find(normalized_brand, start_pos)`.  The loop searches the
NORMALIZED text but takes the context window from the ORIGINAL text at the
found (normalized-space) index, and advances `start_pos` past the match.
Embedded fuel-indexed; `none` models divergence (the source loop has no other
exit than `find` returning `-1`). -/
def contextLoop (nb normText origText : PyStr) :
    Nat → Nat → List PyStr → Option (List PyStr)
  | 0, _, _ => none
  | fuel + 1, startPos, acc =>
    match pyFind normText nb startPos with
    | none => some acc
    | some pos =>
      let context := extract_sentence_context origText pos 100
      let acc' := if context ≠ [] ∧ 10 < context.length then acc ++ [context] else acc
      contextLoop nb normText origText fuel (pos + nb.length) acc'

/-- src/phase4_category_analysis.py lines 66-84: the per-source body of the
search (`if not text: continue`, then normalize and run the `find` loop from
`start_pos = 0`). -/
def sourceContexts (nb text : PyStr) (fuel : Nat) : Option (List PyStr) :=
  if text = [] then some []
  else contextLoop nb (normalize_brand_name text) text fuel 0 []

/-- Contexts gathered over a list of text sources, in order; `none` if any
source's loop diverges. -/
def gatherContexts (nb : PyStr) (texts : List PyStr) (fuel : Nat) :
    Option (List PyStr) :=
  match texts with
  | [] => some []
  | t :: ts => do
    let cs ← sourceContexts nb t fuel
    let rest ← gatherContexts nb ts fuel
    pure (cs ++ rest)

/-- src/phase4_category_analysis.py lines 41-86, `extract_brand_contexts`:
normalize the brand name once, then scan every text source of every post. -/
def extract_brand_contexts (posts : List Post) (brandName : PyStr) (fuel : Nat) :
    Option (List PyStr) :=
  gatherContexts (normalize_brand_name brandName) (posts.flatMap textSources) fuel

/-- C1 failing input: one post whose title is "xyz" followed by 150 dots
followed by "gucci"; the dots are dropped by normalization, so the match index
in normalized space (3) points far before the actual mention in the original
text. -/
def c1Post : Post := ⟨pyStr "xyz" ++ List.replicate 150 46 ++ pyStr "gucci", [], []⟩

/-- C1: the single context the code returns for brand "Gucci" on `c1Post`:
the first 103 characters of the title, which contain no trace of the mention. -/
def c1Context : PyStr := pyStr "xyz" ++ List.replicate 100 46

set_option maxRecDepth 4000 in
/-- C1 (code bug): the normalized brand name is non-empty, the extractor
terminates and returns exactly one context, and that context — normalized —
does NOT contain the normalized brand name.  The source takes the window
around the match index of the normalized text directly in the original text,
without mapping the index back, so the window can miss the mention entirely. -/
theorem c1_context_misses_mention :
    normalize_brand_name (pyStr "Gucci") ≠ [] ∧
    extract_brand_contexts [c1Post] (pyStr "Gucci") 200 = some [c1Context] ∧
    pyContains (normalize_brand_name c1Context)
      (normalize_brand_name (pyStr "Gucci")) = false := by
  refine ⟨by decide, by decide, by decide⟩

/-- C2 failing input: a post with a plain non-empty title, and a brand name
made of punctuation only, whose normalized form is empty. -/
def c2Post : Post := ⟨pyStr "hello world", [], []⟩

theorem pyFind_empty_zero {text : PyStr} : pyFind text [] 0 = some 0 := by
  simp [pyFind, List.range_succ_eq_map, List.find?_cons]

theorem contextLoop_empty_needle_diverges (normText origText : PyStr) :
    ∀ fuel acc, contextLoop [] normText origText fuel 0 acc = none := by
  intro fuel
  induction fuel with
  | zero => intro acc; rfl
  | succ n ih =>
    intro acc
    rw [contextLoop, pyFind_empty_zero]
    exact ih _

/-- C2 (code bug): when the target brand name normalizes to the empty string,
`extract_brand_contexts` does not terminate on any post with a non-empty text
source: `find` returns `start_pos` itself for the empty needle and
`start_pos` advances by the needle's length 0, so the loop repeats forever at
position 0.  Formally, the fuel-indexed embedding returns `none` (divergence)
for every fuel bound.  The source has no guard for this case. -/
theorem c2_empty_needle_diverges :
    normalize_brand_name (pyStr "!!!") = [] ∧
    ∀ fuel, extract_brand_contexts [c2Post] (pyStr "!!!") fuel = none := by
  refine ⟨by decide, ?_⟩
  intro fuel
  have hnb : normalize_brand_name (pyStr "!!!") = [] := by decide
  show gatherContexts _ _ fuel = none
  rw [hnb]
  show (do
    let cs ← sourceContexts [] c2Post.title fuel
    let rest ← gatherContexts [] [([] : PyStr)] fuel
    pure (cs ++ rest)) = none
  have hsrc : sourceContexts [] c2Post.title fuel = none := by
    show (if c2Post.title = [] then some [] else _) = none
    rw [if_neg (by decide)]
    exact contextLoop_empty_needle_diverges _ _ fuel []
  rw [hsrc]
  rfl

/-- A brand (or category) record: `{id, name, total_mentions}`. -/
structure Brand where
  id : Int
  name : PyStr
  total_mentions : Int
deriving DecidableEq

/-- Replace-or-append update of an association list: Python `d[k] = v` on an
insertion-ordered dict. -/
def assocSet {α β : Type} [DecidableEq α] : List (α × β) → α → β → List (α × β)
  | [], k, v => [(k, v)]
  | (a, b) :: t, k, v => if a = k then (a, v) :: t else (a, b) :: assocSet t k v

/-- Python `d.get(k)`: the binding of `k`, if any (association lists built with
`assocSet` have at most one binding per key; the first match is it). -/
def assocGet {α β : Type} [DecidableEq α] (m : List (α × β)) (k : α) : Option β :=
  (m.find? (fun p => decide (p.1 = k))).map (·.2)

/-- Strict lexicographic comparison of Python strings (`s < t` on `str`). -/
def pyStrLt : PyStr → PyStr → Bool
  | _, [] => false
  | [], _ :: _ => true
  | a :: s, b :: t => if a < b then true else if b < a then false else pyStrLt s t

/-- Insertion step of a stable sort: place `x` before the first element `y`
with `le x y`. -/
def pyInsert {α : Type} (le : α → α → Bool) (x : α) : List α → List α
  | [] => [x]
  | y :: t => if le x y then x :: y :: t else y :: pyInsert le x t

/-- Python's `sorted` / `list.sort` with a key function folded into `le`:
stable insertion sort, which agrees with Python's stable sort on every total
preorder (and all comparisons used in this development are total preorders). -/
def pySortBy {α : Type} (le : α → α → Bool) (l : List α) : List α :=
  l.foldr (pyInsert le) []

theorem mem_pyInsert {α : Type} (le : α → α → Bool) (x a : α) :
    ∀ l, a ∈ pyInsert le x l ↔ a = x ∨ a ∈ l := by
  intro l
  induction l with
  | nil => simp [pyInsert]
  | cons y t ih =>
    by_cases h : le x y = true
    · simp [pyInsert, h]
    · simp only [pyInsert, if_neg h, List.mem_cons, ih]
      tauto

theorem length_pyInsert {α : Type} (le : α → α → Bool) (x : α) :
    ∀ l, (pyInsert le x l).length = l.length + 1 := by
  intro l
  induction l with
  | nil => rfl
  | cons y t ih =>
    by_cases h : le x y = true
    · simp [pyInsert, h]
    · simp [pyInsert, h, ih]

theorem mem_pySortBy {α : Type} (le : α → α → Bool) (a : α) :
    ∀ l, a ∈ pySortBy le l ↔ a ∈ l := by
  intro l
  induction l with
  | nil => simp [pySortBy]
  | cons y t ih =>
    show a ∈ pyInsert le y (pySortBy le t) ↔ _
    rw [mem_pyInsert]
    simp only [List.mem_cons, ih]

theorem length_pySortBy {α : Type} (le : α → α → Bool) :
    ∀ l, (pySortBy le l).length = l.length := by
  intro l
  induction l with
  | nil => rfl
  | cons y t ih =>
    show (pyInsert le y (pySortBy le t)).length = _
    rw [length_pyInsert, ih]
    rfl

/-- src/phase3_analysis.py lines 150-157: one step of the brand accumulator —
`brand_accumulator[name] += mentions` if the raw name is already a key,
otherwise `brand_accumulator[name] = mentions` (dict insertion order kept). -/
def accAdd : List (PyStr × Int) → PyStr → Int → List (PyStr × Int)
  | [], n, m => [(n, m)]
  | (k, v) :: t, n, m => if k = n then (k, v + m) :: t else (k, v) :: accAdd t n m

/-- The Phase-3 accumulator over a whole observation sequence of
`(raw name, mentions)` pairs. -/
def brand_accumulate (obs : List (PyStr × Int)) : List (PyStr × Int) :=
  obs.foldl (fun acc o => accAdd acc o.1 o.2) []

/-- src/phase3_analysis.py lines 161-167: drop accumulated names with
`count > 1` failing (`if count > 1`), sort the survivors by `x[0].lower()`
(stable ascending), and assign ids `1, 2, …` in sorted order. -/
def phase3_brands_json (accum : List (PyStr × Int)) : List Brand :=
  let filtered := accum.filter (fun p => decide (1 < p.2))
  let sorted := pySortBy (fun a b => !(pyStrLt (pyLower b.1) (pyLower a.1))) filtered
  sorted.enum.map (fun p => ⟨(p.1 : Int) + 1, p.2.1, p.2.2⟩)

/-- C5 counterexample: on the observation sequence [("A",3),("A",2),("B",1)]
the Phase-3 block does NOT produce the claimed
[{id:1,name:"A",total:5},{id:2,name:"B",total:1}] — the code unconditionally
filters out names whose accumulated total is not `> 1`, so "B" is dropped
before ids are assigned. -/
theorem c5_reference_output_refuted :
    phase3_brands_json (brand_accumulate [(pyStr "A", 3), (pyStr "A", 2), (pyStr "B", 1)]) ≠
      [⟨1, pyStr "A", 5⟩, ⟨2, pyStr "B", 1⟩] := by
  decide

/-- C5 amended: with the code's fixed minimum-count filter (totals of 1 are
dropped before id assignment), the observation sequence
[("A",3),("A",2),("B",1)] yields exactly [{id:1,name:"A",total_mentions:5}]. -/
theorem c5_amended_accumulator_result :
    phase3_brands_json (brand_accumulate [(pyStr "A", 3), (pyStr "A", 2), (pyStr "B", 1)]) =
      [⟨1, pyStr "A", 5⟩] := by
  decide

/-- Python `max(ids, default=0)` (the max of a non-empty list ignores the
default). -/
def listMaxD (l : List Int) (d : Int) : Int :=
  match l with
  | [] => d
  | x :: xs => xs.foldl max x

/-- State of the master-merge loop of src/phase5_addToMaster.py lines 99-137:
the master list (mutated in place through `master_lookup` indices), the
name-to-index dict, the next fresh id, and the two counters. -/
structure MergeState where
  master : List Brand
  lkp : List (PyStr × Nat)
  next_id : Int
  added : Nat
  updated : Nat

/-- In-place `master_brands[idx]['total_mentions'] += mentions`. -/
def bumpTotal (l : List Brand) (i : Nat) (m : Int) : List Brand :=
  match l[i]? with
  | some b => l.set i ⟨b.id, b.name, b.total_mentions + m⟩
  | none => l

/-- src/phase5_addToMaster.py lines 102-105: `master_lookup`, mapping each
master brand's lowercased name to its index (later duplicates overwrite). -/
def buildNameIndex (master : List Brand) : List (PyStr × Nat) :=
  master.enum.foldl (fun m p => assocSet m (pyLower p.2.name) p.1) []

/-- src/phase5_addToMaster.py lines 114-137: the per-batch-brand body of
`merge_brands_to_master` — update in place on a lowercased-name hit, else
append with the next fresh id and record the new index. -/
def mergeStep (st : MergeState) (b : Brand) : MergeState :=
  let key := pyLower b.name
  match assocGet st.lkp key with
  | some idx =>
    { st with master := bumpTotal st.master idx b.total_mentions,
              updated := st.updated + 1 }
  | none =>
    { master := st.master ++ [⟨st.next_id, b.name, b.total_mentions⟩],
      lkp := assocSet st.lkp key st.master.length,
      next_id := st.next_id + 1,
      added := st.added + 1,
      updated := st.updated }

/-- src/phase5_addToMaster.py lines 99-142, `merge_brands_to_master`:
returns the merged master list (sorted by lowercased name ascending) together
with `brands_added` and `brands_updated`. -/
def merge_brands_to_master (dedup master : List Brand) :
    List Brand × Nat × Nat :=
  let st0 : MergeState :=
    ⟨master, buildNameIndex master, listMaxD (master.map (·.id)) 0 + 1, 0, 0⟩
  let st := dedup.foldl mergeStep st0
  (pySortBy (fun a b => !(pyStrLt (pyLower b.name) (pyLower a.name))) st.master,
   st.added, st.updated)

/-- C7 (confirmed): merging the batch [{name:"Acme",total_mentions:5}] into an
empty master yields Acme with total 5; merging the identical batch into the
result updates it in place to total 10 (explicit non-idempotence law). -/
theorem c7_merge_doubling :
    (merge_brands_to_master [⟨1, pyStr "Acme", 5⟩] []).1 = [⟨1, pyStr "Acme", 5⟩] ∧
    merge_brands_to_master [⟨1, pyStr "Acme", 5⟩]
        (merge_brands_to_master [⟨1, pyStr "Acme", 5⟩] []).1 =
      ([⟨1, pyStr "Acme", 10⟩], 0, 1) := by
  refine ⟨by decide, by decide⟩

/-- A master brand-to-brand relationship record
`{brand_id_1, brand_id_2, total_mentions}`. -/
structure Rel where
  brand_id_1 : Int
  brand_id_2 : Int
  total_mentions : Int
deriving DecidableEq

/-- src/phase5_addToMaster.py lines 43-45: `name_to_id`, mapping each master
brand's lowercased name to its id (later duplicates overwrite). -/
def nameToId (master : List Brand) : List (PyStr × Int) :=
  master.foldl (fun m b => assocSet m (pyLower b.name) b.id) []

/-- src/phase5_addToMaster.py lines 48-51: `relationship_lookup`, keyed by the
stored `(brand_id_1, brand_id_2)` pair; the dict holds aliases of the records
in the ledger list, modelled as indices (later duplicate keys overwrite). -/
def buildRelIndex (ledger : List Rel) : List ((Int × Int) × Nat) :=
  ledger.enum.foldl (fun m p => assocSet m (p.2.brand_id_1, p.2.brand_id_2) p.1) []

/-- State of the relationship-update loop: ledger list, key-to-index dict and
the two counters. -/
structure RelState where
  ledger : List Rel
  lkp : List ((Int × Int) × Nat)
  added : Nat
  updated : Nat

/-- In-place `relationship_lookup[rel_key]['total_mentions'] += mentions`
(the dict value aliases the ledger record at the stored index). -/
def bumpRel (l : List Rel) (i : Nat) (m : Int) : List Rel :=
  match l[i]? with
  | some r => l.set i ⟨r.brand_id_1, r.brand_id_2, r.total_mentions + m⟩
  | none => l

/-- src/phase5_addToMaster.py lines 69-73: the relationship key, smaller id
first. -/
def relKey (searchId id2 : Int) : Int × Int :=
  if searchId < id2 then (searchId, id2) else (id2, searchId)

/-- src/phase5_addToMaster.py lines 75-91: update the existing record for the
key in place, or append a new record under the key. -/
def relApply (st : RelState) (key : Int × Int) (m : Int) : RelState :=
  match assocGet st.lkp key with
  | some idx =>
    { st with ledger := bumpRel st.ledger idx m, updated := st.updated + 1 }
  | none =>
    { ledger := st.ledger ++ [⟨key.1, key.2, m⟩],
      lkp := assocSet st.lkp key st.ledger.length,
      added := st.added + 1, updated := st.updated }

/-- src/phase5_addToMaster.py lines 56-91: the per-batch-brand body of
`update_brand_to_brand_relationships` — resolve the master id by lowercased
name, skip self-relationships with the pivot, order the pair smaller-first,
then update in place or append. -/
def relStep (nameIdx : List (PyStr × Int)) (searchId : Int)
    (st : RelState) (b : Brand) : RelState :=
  match assocGet nameIdx (pyLower b.name) with
  | none => st
  | some id2 =>
    if id2 = searchId then st
    else relApply st (relKey searchId id2) b.total_mentions

/-- Sort key of src/phase5_addToMaster.py line 94: `(brand_id_1, brand_id_2)`
ascending. -/
def relLe (a b : Rel) : Bool :=
  decide (a.brand_id_1 < b.brand_id_1 ∨
    (a.brand_id_1 = b.brand_id_1 ∧ a.brand_id_2 ≤ b.brand_id_2))

/-- src/phase5_addToMaster.py lines 39-96, `update_brand_to_brand_relationships`:
returns the updated ledger (sorted by id pair) with `relationships_added` and
`relationships_updated`. -/
def update_brand_to_brand_relationships (dedup master : List Brand)
    (searchId : Int) (ledger : List Rel) : List Rel × Nat × Nat :=
  let st := dedup.foldl (relStep (nameToId master) searchId)
    ⟨ledger, buildRelIndex ledger, 0, 0⟩
  (pySortBy relLe st.ledger, st.added, st.updated)

/-- Master list used to resolve batch entries to the entity ids 1 and 2 in the
C6 scenario. -/
def c6Master : List Brand := [⟨1, pyStr "alpha", 7⟩, ⟨2, pyStr "beta", 9⟩]

/-- C6 (confirmed): updating an empty ledger with pivot 1 and a batch entry
resolving to entity 2 with 5 mentions appends the record (1,2,5); updating the
result with pivot 2 and a batch entry resolving to entity 1 with 3 mentions
finds the same unordered pair and bumps it in place to (1,2,8): exactly one
record, smaller id first, totals summed across both call directions. -/
theorem c6_pair_symmetry :
    update_brand_to_brand_relationships [⟨10, pyStr "beta", 5⟩] c6Master 1 [] =
      ([⟨1, 2, 5⟩], 1, 0) ∧
    update_brand_to_brand_relationships [⟨11, pyStr "alpha", 3⟩] c6Master 2
        (update_brand_to_brand_relationships [⟨10, pyStr "beta", 5⟩] c6Master 1 []).1 =
      ([⟨1, 2, 8⟩], 0, 1) := by
  refine ⟨by decide, by decide⟩

/-- A single-run relationship record of src/phase4_deduplication.py,
`{brand_a_id, brand_b_id, mentions}` (fixed subject → object direction). -/
structure RelAB where
  brand_a_id : Int
  brand_b_id : Int
  mentions : Int
deriving DecidableEq

/-- src/phase4_deduplication.py lines 210-239, `create_brand_relationships`:
lowercase the search term, find the first consolidated brand whose normalized
name equals the normalized search term, and pair it (as `brand_a_id`) with
every other consolidated brand; a falsy (0 or missing) search brand id yields
no relationships. -/
def create_brand_relationships (consolidated : List Brand) (searchTerm : PyStr) :
    List RelAB :=
  match consolidated.find?
      (fun b => decide (normalize_brand_name b.name =
        normalize_brand_name (pyLower searchTerm))) with
  | none => []
  | some sb =>
    if sb.id = 0 then []
    else
      (consolidated.filter (fun b => b.id != sb.id)).map
        (fun b => ⟨sb.id, b.id, b.total_mentions⟩)

theorem foldl_max_init_le (xs : List Int) : ∀ a : Int, a ≤ xs.foldl max a := by
  induction xs with
  | nil => intro a; exact le_refl a
  | cons y ys ih => intro a; exact le_trans (le_max_left a y) (ih (max a y))

theorem mem_le_foldl_max (xs : List Int) :
    ∀ (a x : Int), x ∈ xs → x ≤ xs.foldl max a := by
  induction xs with
  | nil => intro a x hx; cases hx
  | cons y ys ih =>
    intro a x hx
    rcases List.mem_cons.mp hx with h | h
    · subst h; exact le_trans (le_max_right a x) (foldl_max_init_le ys (max a x))
    · exact ih (max a y) x h

theorem id_le_listMaxD (master : List Brand) (b : Brand) (hb : b ∈ master) :
    b.id ≤ listMaxD (master.map Brand.id) 0 := by
  cases master with
  | nil => cases hb
  | cons m ms =>
    show b.id ≤ (ms.map Brand.id).foldl max m.id
    rcases List.mem_cons.mp hb with h | h
    · subst h; exact foldl_max_init_le _ _
    · exact mem_le_foldl_max _ _ _ (List.mem_map_of_mem _ h)

theorem length_bumpTotal (l : List Brand) (i : Nat) (m : Int) :
    (bumpTotal l i m).length = l.length := by
  unfold bumpTotal
  cases h : l[i]? with
  | none => rfl
  | some b => simp

theorem mem_bumpTotal (l : List Brand) (i : Nat) (m : Int) :
    ∀ b ∈ bumpTotal l i m, ∃ b₀ ∈ l, b₀.id = b.id := by
  unfold bumpTotal
  cases h : l[i]? with
  | none => intro b hb; exact ⟨b, hb, rfl⟩
  | some c =>
    intro b hb
    rcases List.mem_or_eq_of_mem_set hb with h1 | h1
    · exact ⟨b, h1, rfl⟩
    · subst h1
      obtain ⟨hlt, hget⟩ := List.getElem?_eq_some.mp h
      exact ⟨c, hget ▸ List.getElem_mem hlt, rfl⟩

theorem merge_fold_inv (master : List Brand) (M : Int) :
    ∀ (dedup : List Brand) (st : MergeState),
      st.master.length = master.length + st.added →
      st.next_id = M + 1 + (st.added : Int) →
      (∀ b ∈ st.master, (∃ b₀ ∈ master, b₀.id = b.id) ∨ M < b.id) →
      (dedup.foldl mergeStep st).master.length
          = master.length + (dedup.foldl mergeStep st).added ∧
      (dedup.foldl mergeStep st).next_id
          = M + 1 + ((dedup.foldl mergeStep st).added : Int) ∧
      (dedup.foldl mergeStep st).added + (dedup.foldl mergeStep st).updated
          = st.added + st.updated + dedup.length ∧
      ∀ b ∈ (dedup.foldl mergeStep st).master,
        (∃ b₀ ∈ master, b₀.id = b.id) ∨ M < b.id := by
  intro dedup
  induction dedup with
  | nil =>
    intro st h1 h2 h3
    exact ⟨h1, h2, by simp, h3⟩
  | cons d ds ih =>
    intro st h1 h2 h3
    rw [List.foldl_cons]
    cases hg : assocGet st.lkp (pyLower d.name) with
    | some idx =>
      have hstep : mergeStep st d =
          { st with master := bumpTotal st.master idx d.total_mentions,
                    updated := st.updated + 1 } := by
        simp [mergeStep, hg]
      rw [hstep]
      have h1' : (bumpTotal st.master idx d.total_mentions).length
          = master.length + st.added := by rw [length_bumpTotal]; exact h1
      have h3' : ∀ b ∈ bumpTotal st.master idx d.total_mentions,
          (∃ b₀ ∈ master, b₀.id = b.id) ∨ M < b.id := by
        intro b hb
        obtain ⟨c, hc, hcid⟩ := mem_bumpTotal st.master idx d.total_mentions b hb
        rcases h3 c hc with h | h
        · exact Or.inl (hcid ▸ h)
        · exact Or.inr (hcid ▸ h)
      obtain ⟨H1, H2, H3, H4⟩ :=
        ih { st with master := bumpTotal st.master idx d.total_mentions,
                     updated := st.updated + 1 } h1' h2 h3'
      refine ⟨H1, H2, ?_, H4⟩
      rw [List.length_cons]
      simp only at H3
      omega
    | none =>
      have hstep : mergeStep st d =
          { master := st.master ++ [⟨st.next_id, d.name, d.total_mentions⟩],
            lkp := assocSet st.lkp (pyLower d.name) st.master.length,
            next_id := st.next_id + 1,
            added := st.added + 1,
            updated := st.updated } := by
        simp [mergeStep, hg]
      rw [hstep]
      have h1' : (st.master ++ [(⟨st.next_id, d.name, d.total_mentions⟩ : Brand)]).length
          = master.length + (st.added + 1) := by
        simp [h1]
        omega
      have h2' : st.next_id + 1 = M + 1 + ((st.added + 1 : Nat) : Int) := by
        push_cast
        omega
      have h3' : ∀ b ∈ st.master ++ [(⟨st.next_id, d.name, d.total_mentions⟩ : Brand)],
          (∃ b₀ ∈ master, b₀.id = b.id) ∨ M < b.id := by
        intro b hb
        rcases List.mem_append.mp hb with h | h
        · exact h3 b h
        · have hb' : b = ⟨st.next_id, d.name, d.total_mentions⟩ := by
            simpa using h
          subst hb'
          right
          show M < st.next_id
          rw [h2]
          have : (0 : Int) ≤ (st.added : Int) := Int.natCast_nonneg _
          omega
      obtain ⟨H1, H2, H3, H4⟩ :=
        ih { master := st.master ++ [⟨st.next_id, d.name, d.total_mentions⟩],
             lkp := assocSet st.lkp (pyLower d.name) st.master.length,
             next_id := st.next_id + 1,
             added := st.added + 1,
             updated := st.updated } h1' h2' h3'
      refine ⟨H1, H2, ?_, H4⟩
      rw [List.length_cons]
      simp only at H3
      omega

/-- C10 (implicit accounting invariant of `merge_brands_to_master`): each batch
entity is classified exactly once (`brands_added + brands_updated` equals the
batch length), the returned master's length is the input master's length plus
`brands_added`, and every record of the result either keeps the id of some
input-master record or has an id strictly greater than every input-master id
(freshly minted ids start at `max(existing ids, default 0) + 1` and only grow). -/
theorem c10_merge_accounting (dedup master : List Brand) :
    (merge_brands_to_master dedup master).2.1 + (merge_brands_to_master dedup master).2.2
        = dedup.length ∧
    (merge_brands_to_master dedup master).1.length
        = master.length + (merge_brands_to_master dedup master).2.1 ∧
    ∀ b ∈ (merge_brands_to_master dedup master).1,
      (∃ b₀ ∈ master, b₀.id = b.id) ∨ ∀ b₀ ∈ master, b₀.id < b.id := by
  have inv := merge_fold_inv master (listMaxD (master.map Brand.id) 0) dedup
    ⟨master, buildNameIndex master, listMaxD (master.map (·.id)) 0 + 1, 0, 0⟩
    (by simp) (by simp) (fun b hb => Or.inl ⟨b, hb, rfl⟩)
  obtain ⟨H1, H2, H3, H4⟩ := inv
  have hout : merge_brands_to_master dedup master =
      (pySortBy (fun a b => !(pyStrLt (pyLower b.name) (pyLower a.name)))
        (dedup.foldl mergeStep
          ⟨master, buildNameIndex master, listMaxD (master.map (·.id)) 0 + 1, 0, 0⟩).master,
       (dedup.foldl mergeStep
          ⟨master, buildNameIndex master, listMaxD (master.map (·.id)) 0 + 1, 0, 0⟩).added,
       (dedup.foldl mergeStep
          ⟨master, buildNameIndex master, listMaxD (master.map (·.id)) 0 + 1, 0, 0⟩).updated) := rfl
  rw [hout]
  refine ⟨?_, ?_, ?_⟩
  · simp only at H3 ⊢
    omega
  · show (pySortBy _ _).length = _
    rw [length_pySortBy]
    exact H1
  · intro b hb
    have hb' := (mem_pySortBy _ b _).mp hb
    rcases H4 b hb' with h | h
    · exact Or.inl h
    · exact Or.inr (fun b₀ hb₀ =>
        lt_of_le_of_lt (id_le_listMaxD master b₀ hb₀) h)

/-- C10 witness: merging the batch [{id:1,name:"Acme",total:5}] into the master
[{id:7,name:"Zed",total:2}] — one brand added, none updated, result length 2,
and the appended record's id 8 exceeds the sole input id 7. -/
theorem c10_witness :
    (merge_brands_to_master [⟨1, pyStr "Acme", 5⟩] [⟨7, pyStr "Zed", 2⟩]).2.1 +
        (merge_brands_to_master [⟨1, pyStr "Acme", 5⟩] [⟨7, pyStr "Zed", 2⟩]).2.2 = 1 ∧
    (merge_brands_to_master [⟨1, pyStr "Acme", 5⟩] [⟨7, pyStr "Zed", 2⟩]).1.length
        = 1 + (merge_brands_to_master [⟨1, pyStr "Acme", 5⟩] [⟨7, pyStr "Zed", 2⟩]).2.1 ∧
    ((∃ b₀ ∈ [(⟨7, pyStr "Zed", 2⟩ : Brand)],
        b₀.id = (⟨8, pyStr "Acme", 5⟩ : Brand).id) ∨
      ∀ b₀ ∈ [(⟨7, pyStr "Zed", 2⟩ : Brand)],
        b₀.id < (⟨8, pyStr "Acme", 5⟩ : Brand).id) := by
  obtain ⟨H1, H2, H3⟩ := c10_merge_accounting [⟨1, pyStr "Acme", 5⟩] [⟨7, pyStr "Zed", 2⟩]
  exact ⟨H1, H2, H3 ⟨8, pyStr "Acme", 5⟩ (by decide)⟩

theorem mem_bumpRel (l : List Rel) (i : Nat) (m : Int) :
    ∀ r ∈ bumpRel l i m,
      ∃ r₀ ∈ l, r₀.brand_id_1 = r.brand_id_1 ∧ r₀.brand_id_2 = r.brand_id_2 := by
  unfold bumpRel
  cases h : l[i]? with
  | none => intro r hr; exact ⟨r, hr, rfl, rfl⟩
  | some c =>
    intro r hr
    rcases List.mem_or_eq_of_mem_set hr with h1 | h1
    · exact ⟨r, h1, rfl, rfl⟩
    · subst h1
      obtain ⟨hlt, hget⟩ := List.getElem?_eq_some.mp h
      exact ⟨c, hget ▸ List.getElem_mem hlt, rfl, rfl⟩

theorem rel_fold_inv (nameIdx : List (PyStr × Int)) (sid : Int) (L0 : List Rel) :
    ∀ (dedup : List Brand) (st : RelState),
      (∀ r ∈ st.ledger, r.brand_id_1 ≠ r.brand_id_2 ∨
        ∃ r₀ ∈ L0, r₀.brand_id_1 = r.brand_id_1 ∧ r₀.brand_id_2 = r.brand_id_2) →
      ∀ r ∈ (dedup.foldl (relStep nameIdx sid) st).ledger,
        r.brand_id_1 ≠ r.brand_id_2 ∨
          ∃ r₀ ∈ L0, r₀.brand_id_1 = r.brand_id_1 ∧ r₀.brand_id_2 = r.brand_id_2 := by
  intro dedup
  induction dedup with
  | nil => intro st h; exact h
  | cons d ds ih =>
    intro st h
    rw [List.foldl_cons]
    cases hg : assocGet nameIdx (pyLower d.name) with
    | none =>
      have hstep : relStep nameIdx sid st d = st := by simp [relStep, hg]
      rw [hstep]; exact ih st h
    | some id2 =>
      by_cases heq : id2 = sid
      · have hstep : relStep nameIdx sid st d = st := by simp [relStep, hg, heq]
        rw [hstep]; exact ih st h
      · have hstep : relStep nameIdx sid st d =
            relApply st (relKey sid id2) d.total_mentions := by
          simp [relStep, hg, heq]
        rw [hstep]
        have hkey : (relKey sid id2).1 ≠ (relKey sid id2).2 := by
          unfold relKey
          by_cases hlt : sid < id2
          · rw [if_pos hlt]; simp only; omega
          · rw [if_neg hlt]; simp only; omega
        refine ih _ ?_
        intro r hr
        unfold relApply at hr
        cases hk : assocGet st.lkp (relKey sid id2) with
        | some idx =>
          rw [hk] at hr
          simp only at hr
          obtain ⟨c, hc, hc1, hc2⟩ := mem_bumpRel st.ledger idx d.total_mentions r hr
          rcases h c hc with h' | h'
          · exact Or.inl (hc1 ▸ hc2 ▸ h')
          · exact Or.inr (hc1 ▸ hc2 ▸ h')
        | none =>
          rw [hk] at hr
          simp only at hr
          rcases List.mem_append.mp hr with h' | h'
          · exact h r h'
          · have hr' : r = ⟨(relKey sid id2).1, (relKey sid id2).2,
                d.total_mentions⟩ := by simpa using h'
            subst hr'
            exact Or.inl hkey

/-- C9 (confirmed): no self-pair is ever added.  Left conjunct — every record
in the output of `update_brand_to_brand_relationships` either has two distinct
entity ids or carries an id pair already present in the starting ledger (skip
of `brand_id_2 == search_id` plus smaller-id-first key construction).  Right
conjunct — every record built by `create_brand_relationships` has
`brand_a_id ≠ brand_b_id` (the `brand['id'] != search_brand_id` filter). -/
theorem c9_no_self_pairs :
    (∀ (dedup master : List Brand) (sid : Int) (ledger : List Rel),
      ∀ r ∈ (update_brand_to_brand_relationships dedup master sid ledger).1,
        r.brand_id_1 ≠ r.brand_id_2 ∨
          ∃ r₀ ∈ ledger, r₀.brand_id_1 = r.brand_id_1 ∧ r₀.brand_id_2 = r.brand_id_2) ∧
    (∀ (consolidated : List Brand) (searchTerm : PyStr),
      ∀ r ∈ create_brand_relationships consolidated searchTerm,
        r.brand_a_id ≠ r.brand_b_id) := by
  constructor
  · intro dedup master sid ledger r hr
    have hr' : r ∈ (dedup.foldl (relStep (nameToId master) sid)
        ⟨ledger, buildRelIndex ledger, 0, 0⟩).ledger :=
      (mem_pySortBy _ r _).mp hr
    refine rel_fold_inv (nameToId master) sid ledger dedup
      ⟨ledger, buildRelIndex ledger, 0, 0⟩ ?_ r hr'
    intro r₀ h₀
    exact Or.inr ⟨r₀, h₀, rfl, rfl⟩
  · intro consolidated searchTerm r hr
    unfold create_brand_relationships at hr
    cases hfind : consolidated.find?
        (fun b => decide (normalize_brand_name b.name =
          normalize_brand_name (pyLower searchTerm))) with
    | none => rw [hfind] at hr; cases hr
    | some sb =>
      rw [hfind] at hr
      simp only at hr
      by_cases h0 : sb.id = 0
      · rw [if_pos h0] at hr; cases hr
      · rw [if_neg h0] at hr
        obtain ⟨b, hb, rfl⟩ := List.mem_map.mp hr
        have hbf := List.mem_filter.mp hb
        have : b.id ≠ sb.id := by simpa using hbf.2
        exact fun hcontra => this (by simpa using hcontra.symm)

/-- C9 witness: applying both halves at concrete inputs — the record (1,2,5)
added by the master update with pivot 1 has distinct ids, and the record
(1,3,4) built by the single-run builder for search term "Levis" has distinct
ids. -/
theorem c9_witness :
    ((1 : Int) ≠ 2 ∨
      ∃ r₀ ∈ ([] : List Rel), r₀.brand_id_1 = (1 : Int) ∧ r₀.brand_id_2 = (2 : Int)) ∧
    (1 : Int) ≠ 3 :=
  ⟨c9_no_self_pairs.1 [⟨10, pyStr "beta", 5⟩] c6Master 1 [] ⟨1, 2, 5⟩ (by decide),
   c9_no_self_pairs.2 [⟨1, pyStr "levis", 6⟩, ⟨3, pyStr "gap", 4⟩] (pyStr "Levis")
     ⟨1, 3, 4⟩ (by decide)⟩

/-- One deduplication group of Claude's analysis, as consumed by
src/phase4_deduplication.py: `{canonical_name, group_members}` (the
`original_ids` field is never read by the code). -/
structure Group where
  canonical_name : PyStr
  group_members : List PyStr
deriving DecidableEq

/-- The dict comprehension `{brand['name']: brand for brand in brands_data}`
(src/phase4_deduplication.py line 93): lookup by exact raw name, later
duplicates overwriting earlier ones. -/
def lookupBrandByName (brands : List Brand) (n : PyStr) : Option Brand :=
  brands.foldl (fun acc b => if b.name = n then some b else acc) none

/-- State of `consolidate_brands`: the set of grouped member names found so
far, the consolidated output list, the old-id → new-id mapping, and `next_id`. -/
structure ConsState where
  grouped : List PyStr
  out : List Brand
  mapping : List (Int × Int)
  next_id : Int

/-- The group members found in `original_brands`, in member order (a member
listed twice is counted twice, exactly as the source loop does). -/
def groupFound (brands : List Brand) (g : Group) : List Brand :=
  g.group_members.filterMap (lookupBrandByName brands)

/-- src/phase4_deduplication.py lines 108-117: the group's summed
`total_mentions` over every member found in the input (members not found are
silently skipped). -/
def groupTotal (brands : List Brand) (g : Group) : Int :=
  (groupFound brands g).foldl (fun s b => s + b.total_mentions) 0

/-- src/phase4_deduplication.py lines 104-132: one iteration of the groups
loop — record the found member names as grouped, append the consolidated
entry `{next_id, canonical_name, summed total}`, map every found member's old
id to `next_id` (overwriting any earlier binding), and bump `next_id`. -/
def processGroup (brands : List Brand) (st : ConsState) (g : Group) : ConsState :=
  { grouped := st.grouped ++
      g.group_members.filter (fun m => (lookupBrandByName brands m).isSome),
    out := st.out ++ [⟨st.next_id, g.canonical_name, groupTotal brands g⟩],
    mapping := (groupFound brands g).foldl
      (fun mp b => assocSet mp b.id st.next_id) st.mapping,
    next_id := st.next_id + 1 }

/-- src/phase4_deduplication.py lines 135-144: one iteration of the
leftover-brands loop — brands whose name was never recorded as a grouped
member are re-emitted with a fresh sequential id. -/
def singleStep (st : ConsState) (b : Brand) : ConsState :=
  if b.name ∈ st.grouped then st
  else
    { grouped := st.grouped,
      out := st.out ++ [⟨st.next_id, b.name, b.total_mentions⟩],
      mapping := assocSet st.mapping b.id st.next_id,
      next_id := st.next_id + 1 }

/-- src/phase4_deduplication.py lines 89-149, `consolidate_brands`: process
the groups, then the ungrouped brands, then sort by `total_mentions`
descending (Python's stable `reverse=True` sort); returns the consolidated
list and the old-id → new-id mapping. -/
def consolidate_brands (brands : List Brand) (groups : List Group) :
    List Brand × List (Int × Int) :=
  let st1 := groups.foldl (processGroup brands) ⟨[], [], [], 1⟩
  let st2 := brands.foldl singleStep st1
  (pySortBy (fun a b => decide (b.total_mentions ≤ a.total_mentions)) st2.out,
   st2.mapping)

/-- C3 counterexample input: brand "X" (5 mentions) is listed as a member of
BOTH groups; "Y" (3) only of the first, "Z" (2) only of the second. -/
def c3Brands : List Brand := [⟨1, pyStr "X", 5⟩, ⟨2, pyStr "Y", 3⟩, ⟨3, pyStr "Z", 2⟩]

/-- C3 counterexample grouping: the partition invariant is violated — "X"
belongs to both groups. -/
def c3Groups : List Group :=
  [⟨pyStr "G1", [pyStr "X", pyStr "Y"]⟩, ⟨pyStr "G2", [pyStr "X", pyStr "Z"]⟩]

/-- C3 counterexample: with "X" (5 mentions) shared between the two groups,
the FIRST group's consolidated total is 8 = 5 + 3 — it still contains X's
mentions, which last-group-only attribution would give to group 2 alone
(group 1 would then total 3).  Both groups count X: totals are 8 and 7, and
only the old-id → new-id mapping is last-group-wins (old id 1 ↦ 2). -/
theorem c3_shared_member_counted_in_both :
    (consolidate_brands c3Brands c3Groups).1 =
      [⟨1, pyStr "G1", 8⟩, ⟨2, pyStr "G2", 7⟩] ∧
    (consolidate_brands c3Brands c3Groups).2 = [(1, 2), (2, 1), (3, 2)] := by
  refine ⟨by decide, by decide⟩

/-- The consolidated entries the groups loop emits, starting at id `n`. -/
def groupRecords (brands : List Brand) : Int → List Group → List Brand
  | _, [] => []
  | n, g :: gs =>
    ⟨n, g.canonical_name, groupTotal brands g⟩ :: groupRecords brands (n + 1) gs

theorem foldl_processGroup_out (brands : List Brand) :
    ∀ (gs : List Group) (st : ConsState),
      (gs.foldl (processGroup brands) st).out
        = st.out ++ groupRecords brands st.next_id gs := by
  intro gs
  induction gs with
  | nil => intro st; simp [groupRecords]
  | cons g gs ih =>
    intro st
    rw [List.foldl_cons, ih]
    show (st.out ++ [⟨st.next_id, g.canonical_name, groupTotal brands g⟩])
        ++ groupRecords brands (st.next_id + 1) gs = _
    rw [List.append_assoc]
    rfl

theorem mem_singles_out :
    ∀ (bs : List Brand) (st : ConsState) (r : Brand),
      r ∈ st.out → r ∈ (bs.foldl singleStep st).out := by
  intro bs
  induction bs with
  | nil => intro st r hr; exact hr
  | cons b bs ih =>
    intro st r hr
    rw [List.foldl_cons]
    by_cases hb : b.name ∈ st.grouped
    · have : singleStep st b = st := by simp [singleStep, hb]
      rw [this]; exact ih st r hr
    · have : singleStep st b =
          { grouped := st.grouped,
            out := st.out ++ [⟨st.next_id, b.name, b.total_mentions⟩],
            mapping := assocSet st.mapping b.id st.next_id,
            next_id := st.next_id + 1 } := by simp [singleStep, hb]
      rw [this]
      exact ih _ r (List.mem_append_left _ hr)

theorem groupRecords_mem (brands : List Brand) :
    ∀ (gs : List Group) (n : Int) (i : Nat) (h : i < gs.length),
      (⟨n + (i : Int), (gs.get ⟨i, h⟩).canonical_name,
        groupTotal brands (gs.get ⟨i, h⟩)⟩ : Brand) ∈ groupRecords brands n gs := by
  intro gs
  induction gs with
  | nil => intro n i h; cases h
  | cons g gs ih =>
    intro n i h
    cases i with
    | zero =>
      have h0 : n + ((0 : Nat) : Int) = n := by simp
      rw [h0]
      exact List.mem_cons_self _ _
    | succ j =>
      have hj : j < gs.length := Nat.lt_of_succ_lt_succ h
      have hcast : n + ((j + 1 : Nat) : Int) = (n + 1) + (j : Int) := by
        push_cast; ring
      rw [hcast]
      exact List.mem_cons_of_mem _ (ih (n + 1) j hj)

/-- C3 amended: the code never raises, and a raw name listed as a member of
several groups has its `total_mentions` added into the consolidated total of
EVERY group that lists it (so it is double-counted), not only the last one:
for every input and every group index `i`, the consolidated output contains a
record with id `i + 1`, the group's canonical name, and total equal to the sum
over ALL of that group's found members — independent of the other groups.
(Only the old-id → new-id mapping is last-group-wins.) -/
theorem c3_group_total_sums_all_members (brands : List Brand) (groups : List Group)
    (i : Nat) (h : i < groups.length) :
    ∃ r ∈ (consolidate_brands brands groups).1,
      r.id = 1 + (i : Int) ∧
      r.name = (groups.get ⟨i, h⟩).canonical_name ∧
      r.total_mentions = groupTotal brands (groups.get ⟨i, h⟩) := by
  refine ⟨⟨1 + (i : Int), (groups.get ⟨i, h⟩).canonical_name,
    groupTotal brands (groups.get ⟨i, h⟩)⟩, ?_, rfl, rfl, rfl⟩
  show _ ∈ pySortBy _ (brands.foldl singleStep
    (groups.foldl (processGroup brands) ⟨[], [], [], 1⟩)).out
  rw [mem_pySortBy]
  refine mem_singles_out brands _ _ ?_
  rw [foldl_processGroup_out]
  exact List.mem_append_right _ (groupRecords_mem brands groups 1 i h)

/-- C3 witness: the amended statement at the counterexample input, group
index 0 — the record (1, "G1", 8) is in the output, its total being the sum
5 + 3 over both found members of group 1, X's mentions included. -/
theorem c3_witness :
    ∃ r ∈ (consolidate_brands c3Brands c3Groups).1,
      r.id = 1 + ((0 : Nat) : Int) ∧
      r.name = (c3Groups.get ⟨0, by decide⟩).canonical_name ∧
      r.total_mentions = groupTotal c3Brands (c3Groups.get ⟨0, by decide⟩) :=
  c3_group_total_sums_all_members c3Brands c3Groups 0 (by decide)

/-- One alias row `{alias, brand_id, is_canonical}` of
src/phase4_deduplication.py, `create_brand_aliases`. -/
structure AliasRow where
  aliasStr : PyStr
  brand_id : Int
  is_canonical : Bool
deriving DecidableEq

/-- Python `member_name.lower().strip()` (lines 177 and 197; note: NOT the
alphanumeric-only `normalize_brand_name`). -/
def lowerStrip (s : PyStr) : PyStr := pyStrip (pyLower s)

/-- src/phase4_deduplication.py lines 166-171: the group's consolidated id —
walk the members, take the FIRST one present in `original_brands`, and look its
old id up in `brand_id_mapping` (`.get`, so `none` when either step fails). -/
def groupNewId (brands : List Brand) (mapping : List (Int × Int)) (g : Group) :
    Option Int :=
  match g.group_members.find? (fun m => (lookupBrandByName brands m).isSome) with
  | none => none
  | some m =>
    match lookupBrandByName brands m with
    | none => none
    | some b => assocGet mapping b.id

/-- src/phase4_deduplication.py lines 189-191: the union of ALL group member
names (found or not), used to decide which brands count as ungrouped. -/
def groupedNamesAll (groups : List Group) : List PyStr :=
  groups.foldl (fun s g => s ++ g.group_members) []

/-- One alias-emitting unit: a group (its resolved id, canonical name, member
list) or a single ungrouped brand (its mapped id and its own name as the sole
member, which is also the canonical name — making `is_canonical` come out
`True`, as in the source's singles loop). -/
structure AliasUnit where
  uid : Int
  canonical : PyStr
  members : List PyStr
deriving DecidableEq

/-- The units processed by `create_brand_aliases`, in source order: the groups
with a truthy resolved id (`if new_id:` skips `None` and `0`), then the
ungrouped brands with a truthy mapped id. -/
def aliasUnits (brands : List Brand) (groups : List Group)
    (mapping : List (Int × Int)) : List AliasUnit :=
  (groups.filterMap (fun g =>
    match groupNewId brands mapping g with
    | some n => if n ≠ 0 then some ⟨n, g.canonical_name, g.group_members⟩ else none
    | none => none)) ++
  (brands.filterMap (fun b =>
    if b.name ∈ groupedNamesAll groups then none
    else
      match assocGet mapping b.id with
      | some n => if n ≠ 0 then some ⟨n, b.name, [b.name]⟩ else none
      | none => none))

/-- src/phase4_deduplication.py lines 174-186 (and 196-206): the member loop
of one unit.  `alias_key = f"\x7bnormalized_alias\x7d_\x7bnew_id\x7d"` is modelled
as the pair `(alias, id)` — injective, since the id is a single integer after
the last underscore.  A key already in `seen_aliases` is skipped; otherwise the
row is appended with `is_canonical := (member_name == canonical_name)`.
Returns the grown seen-set together with the rows this unit contributed. -/
def emitRows (canonical : PyStr) (n : Int) :
    List PyStr → List (PyStr × Int) → List (PyStr × Int) × List AliasRow
  | [], seen => (seen, [])
  | m :: ms, seen =>
    if (lowerStrip m, n) ∈ seen then emitRows canonical n ms seen
    else
      let p := emitRows canonical n ms ((lowerStrip m, n) :: seen)
      (p.1, ⟨lowerStrip m, n, decide (m = canonical)⟩ :: p.2)

/-- The two loops of `create_brand_aliases` run in sequence over one shared
`seen_aliases` set, concatenating each unit's rows. -/
def runUnits : List AliasUnit → List (PyStr × Int) → List AliasRow
  | [], _ => []
  | u :: us, seen =>
    (emitRows u.canonical u.uid u.members seen).2 ++
      runUnits us (emitRows u.canonical u.uid u.members seen).1

/-- src/phase4_deduplication.py lines 151-208, `create_brand_aliases`. -/
def create_brand_aliases (brands : List Brand) (groups : List Group)
    (mapping : List (Int × Int)) : List AliasRow :=
  runUnits (aliasUnits brands groups mapping) []

/-- C4 counterexample, two scenarios.  First: a group whose `canonical_name`
("Q") is not among its members produces NO row with `is_canonical == true` —
not exactly one.  Second: a group whose canonical member "A B" IS among its
members produces exactly one canonical row, but its alias is the
lowercased-stripped string "a b", which is NOT the normalized form
`normalize_brand_name "A B" = "ab"`. -/
theorem c4_alias_canonical_failures :
    create_brand_aliases [⟨1, pyStr "Y", 4⟩] [⟨pyStr "Q", [pyStr "Y"]⟩] [(1, 1)]
      = [⟨pyStr "y", 1, false⟩] ∧
    create_brand_aliases [⟨1, pyStr "A B", 4⟩, ⟨2, pyStr "AB", 2⟩]
        [⟨pyStr "A B", [pyStr "A B", pyStr "AB"]⟩] [(1, 1), (2, 1)]
      = [⟨pyStr "a b", 1, true⟩, ⟨pyStr "ab", 1, false⟩] ∧
    normalize_brand_name (pyStr "A B") ≠ pyStr "a b" := by
  refine ⟨by decide, by decide, by decide⟩

theorem emitRows_seen_subset (c' : PyStr) (n' : Int) :
    ∀ (ms : List PyStr) (seen : List (PyStr × Int)) (p : PyStr × Int),
      p ∈ seen → p ∈ (emitRows c' n' ms seen).1 := by
  intro ms
  induction ms with
  | nil => intro seen p hp; exact hp
  | cons m ms ih =>
    intro seen p hp
    simp only [emitRows]
    by_cases h : (lowerStrip m, n') ∈ seen
    · rw [if_pos h]; exact ih seen p hp
    · rw [if_neg h]; exact ih _ p (List.mem_cons_of_mem _ hp)

theorem emitRows_seen_mem (c' : PyStr) (n' : Int) :
    ∀ (ms : List PyStr) (seen : List (PyStr × Int)) (p : PyStr × Int),
      p ∈ (emitRows c' n' ms seen).1 → p ∈ seen ∨ p.2 = n' := by
  intro ms
  induction ms with
  | nil => intro seen p hp; exact Or.inl hp
  | cons m ms ih =>
    intro seen p hp
    simp only [emitRows] at hp
    by_cases h : (lowerStrip m, n') ∈ seen
    · rw [if_pos h] at hp; exact ih seen p hp
    · rw [if_neg h] at hp
      rcases ih _ p hp with h' | h'
      · rcases List.mem_cons.mp h' with h'' | h''
        · subst h''; exact Or.inr rfl
        · exact Or.inl h''
      · exact Or.inr h'

theorem emitRows_rows_id (c' : PyStr) (n' : Int) :
    ∀ (ms : List PyStr) (seen : List (PyStr × Int)) (r : AliasRow),
      r ∈ (emitRows c' n' ms seen).2 → r.brand_id = n' := by
  intro ms
  induction ms with
  | nil => intro seen r hr; cases hr
  | cons m ms ih =>
    intro seen r hr
    simp only [emitRows] at hr
    by_cases h : (lowerStrip m, n') ∈ seen
    · rw [if_pos h] at hr; exact ih seen r hr
    · rw [if_neg h] at hr
      rcases List.mem_cons.mp hr with h' | h'
      · subst h'; rfl
      · exact ih _ r h'

theorem emitRows_key_mem (c' : PyStr) (n' : Int) :
    ∀ (ms : List PyStr) (seen : List (PyStr × Int)) (m : PyStr),
      m ∈ ms → (lowerStrip m, n') ∈ (emitRows c' n' ms seen).1 := by
  intro ms
  induction ms with
  | nil => intro seen m hm; cases hm
  | cons m' ms ih =>
    intro seen m hm
    simp only [emitRows]
    by_cases h : (lowerStrip m', n') ∈ seen
    · rw [if_pos h]
      rcases List.mem_cons.mp hm with h' | h'
      · subst h'; exact emitRows_seen_subset c' n' ms seen _ h
      · exact ih seen m h'
    · rw [if_neg h]
      rcases List.mem_cons.mp hm with h' | h'
      · subst h'
        exact emitRows_seen_subset c' n' ms _ _ (List.mem_cons_self _ _)
      · exact ih _ m h'

theorem emitRows_canonical_zero (c' : PyStr) (n' : Int) :
    ∀ (ms : List PyStr) (seen : List (PyStr × Int)),
      (lowerStrip c', n') ∈ seen →
      ((emitRows c' n' ms seen).2).countP (fun r => r.is_canonical) = 0 := by
  intro ms
  induction ms with
  | nil => intro seen _; rfl
  | cons m ms ih =>
    intro seen hcs
    simp only [emitRows]
    by_cases h : (lowerStrip m, n') ∈ seen
    · rw [if_pos h]; exact ih seen hcs
    · rw [if_neg h]
      have hm : ¬ m = c' := fun he => h (by rw [he]; exact hcs)
      show (((⟨lowerStrip m, n', decide (m = c')⟩ : AliasRow)) ::
        (emitRows c' n' ms ((lowerStrip m, n') :: seen)).2).countP
          (fun r => r.is_canonical) = 0
      rw [List.countP_cons]
      have hz := ih ((lowerStrip m, n') :: seen) (List.mem_cons_of_mem _ hcs)
      simp [hz, hm]

theorem emitRows_canonical_one (c' : PyStr) (n' : Int) :
    ∀ (ms : List PyStr) (seen : List (PyStr × Int)),
      (lowerStrip c', n') ∉ seen → c' ∈ ms →
      (∀ m ∈ ms, lowerStrip m = lowerStrip c' → m = c') →
      ((emitRows c' n' ms seen).2).countP (fun r => r.is_canonical) = 1 ∧
      ∀ r ∈ (emitRows c' n' ms seen).2, r.is_canonical = true →
        r.aliasStr = lowerStrip c' := by
  intro ms
  induction ms with
  | nil => intro seen _ hc; cases hc
  | cons m ms ih =>
    intro seen hns hc hkey
    by_cases hm : m = c'
    · subst hm
      simp only [emitRows, if_neg hns]
      have hz := emitRows_canonical_zero m n' ms ((lowerStrip m, n') :: seen)
        (List.mem_cons_self _ _)
      constructor
      · rw [List.countP_cons]
        simp [hz]
      · intro r hr hcan
        rcases List.mem_cons.mp hr with h' | h'
        · subst h'; rfl
        · exact absurd hcan (List.countP_eq_zero.mp hz r h')
    · have hc' : c' ∈ ms := by
        rcases List.mem_cons.mp hc with h' | h'
        · exact absurd h'.symm hm
        · exact h'
      have hkey' : ∀ x ∈ ms, lowerStrip x = lowerStrip c' → x = c' :=
        fun x hx => hkey x (List.mem_cons_of_mem _ hx)
      simp only [emitRows]
      by_cases h : (lowerStrip m, n') ∈ seen
      · rw [if_pos h]; exact ih seen hns hc' hkey'
      · rw [if_neg h]
        have hns' : (lowerStrip c', n') ∉ (lowerStrip m, n') :: seen := by
          intro hmem
          rcases List.mem_cons.mp hmem with h' | h'
          · have ha : lowerStrip c' = lowerStrip m := congrArg Prod.fst h'
            exact hm (hkey m (List.mem_cons_self _ _) ha.symm)
          · exact hns h'
        obtain ⟨cnt, al⟩ := ih ((lowerStrip m, n') :: seen) hns' hc' hkey'
        constructor
        · show (((⟨lowerStrip m, n', decide (m = c')⟩ : AliasRow)) ::
            (emitRows c' n' ms ((lowerStrip m, n') :: seen)).2).countP
              (fun r => r.is_canonical) = 1
          rw [List.countP_cons]
          simp [cnt, hm]
        · intro r hr hcan
          rcases List.mem_cons.mp hr with h' | h'
          · subst h'
            simp only [decide_eq_true_eq] at hcan
            exact absurd hcan hm
          · exact al r h' hcan

theorem countP_id_filter_eq (n : Int) :
    ∀ (l : List AliasRow), (∀ r ∈ l, r.brand_id = n) →
      l.countP (fun r => r.brand_id == n && r.is_canonical)
        = l.countP (fun r => r.is_canonical) := by
  intro l
  induction l with
  | nil => intro _; rfl
  | cons r t ih =>
    intro h
    have hr : r.brand_id = n := h r (List.mem_cons_self _ _)
    have ht : ∀ x ∈ t, x.brand_id = n := fun x hx => h x (List.mem_cons_of_mem _ hx)
    rw [List.countP_cons, List.countP_cons, ih ht]
    simp [hr]

theorem runUnits_canonical_zero (n : Int) (c : PyStr) (ms : List PyStr) :
    ∀ (us : List AliasUnit) (seen : List (PyStr × Int)),
      (∀ u ∈ us, u.uid = n → u = ⟨n, c, ms⟩) →
      (lowerStrip c, n) ∈ seen →
      (runUnits us seen).countP (fun r => r.brand_id == n && r.is_canonical) = 0 := by
  intro us
  induction us with
  | nil => intro seen _ _; rfl
  | cons u us ih =>
    intro seen huniq hcs
    show ((emitRows u.canonical u.uid u.members seen).2 ++
      runUnits us (emitRows u.canonical u.uid u.members seen).1).countP _ = 0
    rw [List.countP_append]
    have htail : (runUnits us (emitRows u.canonical u.uid u.members seen).1).countP
        (fun r => r.brand_id == n && r.is_canonical) = 0 :=
      ih _ (fun v hv => huniq v (List.mem_cons_of_mem _ hv))
        (emitRows_seen_subset _ _ _ _ _ hcs)
    rw [htail]
    by_cases hn : u.uid = n
    · have hu : u = ⟨n, c, ms⟩ := huniq u (List.mem_cons_self _ _) hn
      subst hu
      have hz := emitRows_canonical_zero c n ms seen hcs
      have : ((emitRows c n ms seen).2).countP
          (fun r => r.brand_id == n && r.is_canonical) = 0 := by
        rw [countP_id_filter_eq n _ (fun r hr => emitRows_rows_id c n ms seen r hr)]
        exact hz
      simpa using this
    · have : ((emitRows u.canonical u.uid u.members seen).2).countP
          (fun r => r.brand_id == n && r.is_canonical) = 0 := by
        rw [List.countP_eq_zero]
        intro r hr
        have hid := emitRows_rows_id u.canonical u.uid u.members seen r hr
        simp [hid, hn]
      simpa using this

theorem runUnits_canonical_main (n : Int) (c : PyStr) (ms : List PyStr)
    (hc : c ∈ ms) (hkey : ∀ m ∈ ms, lowerStrip m = lowerStrip c → m = c) :
    ∀ (us : List AliasUnit) (seen : List (PyStr × Int)),
      (⟨n, c, ms⟩ : AliasUnit) ∈ us →
      (∀ u ∈ us, u.uid = n → u = ⟨n, c, ms⟩) →
      (∀ p ∈ seen, p.2 ≠ n) →
      (runUnits us seen).countP (fun r => r.brand_id == n && r.is_canonical) = 1 ∧
      ∀ r ∈ runUnits us seen, r.brand_id = n → r.is_canonical = true →
        r.aliasStr = lowerStrip c := by
  intro us
  induction us with
  | nil => intro seen hmem; cases hmem
  | cons u us ih =>
    intro seen hmem huniq hseen
    by_cases hn : u.uid = n
    · have hu : u = ⟨n, c, ms⟩ := huniq u (List.mem_cons_self _ _) hn
      subst hu
      have hns : (lowerStrip c, n) ∉ seen := fun hmem' => hseen _ hmem' rfl
      obtain ⟨cnt1, al1⟩ := emitRows_canonical_one c n ms seen hns hc hkey
      have hcs' : (lowerStrip c, n) ∈ (emitRows c n ms seen).1 :=
        emitRows_key_mem c n ms seen c hc
      have htail := runUnits_canonical_zero n c ms us (emitRows c n ms seen).1
        (fun v hv => huniq v (List.mem_cons_of_mem _ hv)) hcs'
      constructor
      · show ((emitRows c n ms seen).2 ++
          runUnits us (emitRows c n ms seen).1).countP _ = 1
        rw [List.countP_append, htail,
          countP_id_filter_eq n _ (fun r hr => emitRows_rows_id c n ms seen r hr),
          cnt1]
      · intro r hr hid hcan
        rcases List.mem_append.mp hr with h' | h'
        · exact al1 r h' hcan
        · exact absurd (by simp [hid, hcan] :
              ((fun r => r.brand_id == n && r.is_canonical) r) = true)
            (List.countP_eq_zero.mp htail r h')
    · have hmem' : (⟨n, c, ms⟩ : AliasUnit) ∈ us := by
        rcases List.mem_cons.mp hmem with h' | h'
        · exact absurd (by rw [← h'] : u.uid = n) hn
        · exact h'
      have hseen' : ∀ p ∈ (emitRows u.canonical u.uid u.members seen).1, p.2 ≠ n := by
        intro p hp
        rcases emitRows_seen_mem u.canonical u.uid u.members seen p hp with h' | h'
        · exact hseen p h'
        · rw [h']; exact hn
      obtain ⟨cnt, al⟩ := ih (emitRows u.canonical u.uid u.members seen).1 hmem'
        (fun v hv => huniq v (List.mem_cons_of_mem _ hv)) hseen'
      have hhead : ((emitRows u.canonical u.uid u.members seen).2).countP
          (fun r => r.brand_id == n && r.is_canonical) = 0 := by
        rw [List.countP_eq_zero]
        intro r hr
        have hid := emitRows_rows_id u.canonical u.uid u.members seen r hr
        simp [hid, hn]
      constructor
      · show ((emitRows u.canonical u.uid u.members seen).2 ++
          runUnits us (emitRows u.canonical u.uid u.members seen).1).countP _ = 1
        rw [List.countP_append, hhead, cnt]
      · intro r hr hid hcan
        rcases List.mem_append.mp hr with h' | h'
        · have := emitRows_rows_id u.canonical u.uid u.members seen r h'
          exact absurd (this.symm.trans hid) hn
        · exact al r h' hid hcan

/-- C4 amended: for a group (or, uniformly, any alias-emitting unit) whose
resolved brand id `n` is truthy and belongs to no other group or ungrouped
brand, whose `canonical_name` is listed among its `group_members`, and in
which any member sharing the canonical name's lowercased-stripped form is the
canonical name itself, the alias table contains EXACTLY ONE row with brand id
`n` and `is_canonical == true`, and that row's alias is the LOWERCASED AND
WHITESPACE-STRIPPED canonical name (`canonical_name.lower().strip()` — not the
alphanumeric-only normalized form). -/
theorem c4_canonical_unique_amended (brands : List Brand) (groups : List Group)
    (mapping : List (Int × Int)) (n : Int) (c : PyStr) (ms : List PyStr)
    (hu : (⟨n, c, ms⟩ : AliasUnit) ∈ aliasUnits brands groups mapping)
    (huniq : ∀ u ∈ aliasUnits brands groups mapping, u.uid = n → u = ⟨n, c, ms⟩)
    (hc : c ∈ ms)
    (hkey : ∀ m ∈ ms, lowerStrip m = lowerStrip c → m = c) :
    (create_brand_aliases brands groups mapping).countP
        (fun r => r.brand_id == n && r.is_canonical) = 1 ∧
    ∀ r ∈ create_brand_aliases brands groups mapping,
      r.brand_id = n → r.is_canonical = true → r.aliasStr = lowerStrip c :=
  runUnits_canonical_main n c ms hc hkey (aliasUnits brands groups mapping) []
    hu huniq (fun p hp => absurd hp (List.not_mem_nil p))

/-- C4 witness: the amended statement at the second counterexample input —
exactly one canonical row for brand id 1, whose alias is "a b", the
lowercased-stripped canonical name. -/
theorem c4_witness :
    (create_brand_aliases [⟨1, pyStr "A B", 4⟩, ⟨2, pyStr "AB", 2⟩]
        [⟨pyStr "A B", [pyStr "A B", pyStr "AB"]⟩] [(1, 1), (2, 1)]).countP
        (fun r => r.brand_id == 1 && r.is_canonical) = 1 ∧
    ∀ r ∈ create_brand_aliases [⟨1, pyStr "A B", 4⟩, ⟨2, pyStr "AB", 2⟩]
        [⟨pyStr "A B", [pyStr "A B", pyStr "AB"]⟩] [(1, 1), (2, 1)],
      r.brand_id = 1 → r.is_canonical = true → r.aliasStr = lowerStrip (pyStr "A B") :=
  c4_canonical_unique_amended [⟨1, pyStr "A B", 4⟩, ⟨2, pyStr "AB", 2⟩]
    [⟨pyStr "A B", [pyStr "A B", pyStr "AB"]⟩] [(1, 1), (2, 1)]
    1 (pyStr "A B") [pyStr "A B", pyStr "AB"]
    (by decide) (by decide) (by decide) (by decide)

end FashionGraph
